import Mathlib

/-
Verification of the open-names/resolution library: a Solana name-service
resolver that derives on-chain account addresses from dotted name paths and
decodes the fixed-layout records stored at those addresses.

The repository has two near-duplicate source variants: `src/index.ts`
(namespace IndexTs below) and an unnamed module (namespace Part000 below).
They share the hashing and address-derivation code and differ in the
parameter order of resolveNameAccountKeyByName and in the shape of the
record returned by parseNameAccountInfo.

External library calls (node's SHA-256 and the Solana SDK's
findProgramAddress) are modelled abstractly by a Crypto structure: the
repository's own logic is embedded literally and the theorems about it hold
for every interpretation of the external primitives. findProgramAddress is
Option-valued because the SDK call fails when no off-curve nonce exists;
that failure is propagated as an error, matching the thrown exception.
-/

/-- A single byte value (0..255 in the source; the embedding uses Nat). -/
abbrev Byte := Nat

/-- A node Buffer: a finite byte sequence. -/
abbrev Buffer := List Byte

/-- A Solana PublicKey, modelled by its 32-byte content; equality is
byte-equality, and PublicKey.toBuffer is the identity here. -/
abbrev Identifier := List Byte

/-- Abstract interface to the external cryptographic library calls used by
the source: node's SHA-256 digest and the Solana SDK's program-derived
address search (Option-valued, none when every nonce is on-curve). -/
structure Crypto where
  sha256 : List Byte → List Byte
  findProgramAddress : List Buffer → Identifier → Option Identifier

/-- Base58 string of the name program id, from the source constant. -/
def NAME_PROGRAM_ID_BASE58 : String := "namesLPneVptA9Z5rqUDD9tMTWEJwofgaYwp8cawRkX"

/-- The Base58 alphabet used by Solana public keys. -/
def base58Alphabet : List Char :=
  "123456789ABCDEFGHJKLMNPQRSTUVWXYZabcdefghijkmnopqrstuvwxyz".data

/-- Numeric value of a Base58 string (most significant digit first). -/
def base58ToNat (s : String) : Nat :=
  s.data.foldl (fun acc c => acc * 58 + base58Alphabet.indexOf c) 0

/-- Big-endian byte expansion of a natural number to a fixed width. -/
def natToBytesBE : Nat → Nat → List Byte
  | 0, _ => []
  | len + 1, n => natToBytesBE len (n / 256) ++ [n % 256]

/-- The fixed 32-byte program identifier, decoded from its Base58 form as
`new PublicKey(...)` does in the source. -/
def NAME_PROGRAM_ID : Identifier := natToBytesBE 32 (base58ToNat NAME_PROGRAM_ID_BASE58)

/-- The domain-separation prefix prepended to every hashed name. -/
def HASH_PREFIX : String := "SPL Name Service"

/-- UTF-8 encoding of a single character (by code point ranges). -/
def utf8EncodeChar (c : Char) : List Byte :=
  let n := c.toNat
  if n < 128 then [n]
  else if n < 2048 then [192 + n / 64, 128 + n % 64]
  else if n < 65536 then [224 + n / 4096, 128 + n / 64 % 64, 128 + n % 64]
  else [240 + n / 262144, 128 + n / 4096 % 64, 128 + n / 64 % 64, 128 + n % 64]

/-- UTF-8 encoding of a string, the byte sequence node hashes for a string
update with encoding utf8. -/
def utf8Encode (s : String) : List Byte :=
  (s.data.map utf8EncodeChar).flatten

/-- Embedding of getHashedName: SHA-256 over the UTF-8 bytes of
the prefix concatenated with the name (identical in both variants). -/
def getHashedName (C : Crypto) (name : String) : Buffer :=
  C.sha256 (utf8Encode ( HASH_PREFIX ++ name))

/-- Embedding of Buffer.alloc: a zero-filled buffer of the given length. -/
def bufferAlloc (n : Nat) : Buffer := List.replicate n 0

/-- Embedding of resolveNameAccountKey (identical in both variants): build
the seed list [hashed_name, class-or-zero, parent-or-zero] and call
findProgramAddress with the fixed program id. -/
def resolveNameAccountKey (C : Crypto) (hashed_name : Buffer)
    (nameClass nameParent : Option Identifier) : Option Identifier :=
  let seed2 := match nameClass with
    | some k => k
    | none => bufferAlloc 32
  let seed3 := match nameParent with
    | some p => p
    | none => bufferAlloc 32
  C.findProgramAddress [hashed_name, seed2, seed3] NAME_PROGRAM_ID

/-- Error message thrown by resolve_UTF8_ONS on an empty path. -/
def emptyPathMsg : String := "name path is empty array, can not create get the key path."

/-- Error message the SDK throws when findProgramAddress exhausts nonces. -/
def pdaUnavailableMsg : String := "Unable to find a viable program address nonce"

/-- Error message thrown by parseNameAccountInfo on a null account. -/
def accountNotFoundMsg : String := "Unable to find the given account."

/-- Error message thrown by parseNameAccountInfo on short data. -/
def invalidNameDataMsg : String := "Invalid name account data"

/-- Embedding of the AccountInfo type of the Solana SDK. -/
structure AccountInfo (T : Type) where
  executable : Bool
  owner : Identifier
  lamports : Nat
  data : T
  rentEpoch : Option Nat
deriving DecidableEq

/-- Embedding of Buffer.slice with start and stop offsets. -/
def bufferSlice (b : Buffer) (start stop : Nat) : Buffer :=
  (b.drop start).take (stop - start)

/-- Embedding of Buffer.slice with only a start offset. -/
def bufferSliceFrom (b : Buffer) (start : Nat) : Buffer := b.drop start

namespace IndexTs

/-- Embedding of resolveNameAccountKeyByName from src/index.ts, whose
optional parameters are (parent, klass) in that order; it forwards
(klass, parent) to resolveNameAccountKey. -/
def resolveNameAccountKeyByName (C : Crypto) (name : String)
    (parent klass : Option Identifier) : Option Identifier :=
  resolveNameAccountKey C (getHashedName C name) klass parent

/-- Embedding of the loop body of resolve_UTF8_ONS from src/index.ts: the
names are iterated from the last label to the first (here: the reversed
path front to back), each derived key is unshifted onto the accumulated
list and becomes the parent of the next iteration. The call site passes
the chained parent as the second argument, leaving klass absent. -/
def resolveLoop (C : Crypto) : List String → Option Identifier → List Identifier →
    Except String (List Identifier)
  | [], _, keys => .ok keys
  | name :: rest, parentNameKey, keys =>
    match resolveNameAccountKeyByName C name parentNameKey none with
    | none => .error pdaUnavailableMsg
    | some nameKey => resolveLoop C rest (some nameKey) (nameKey :: keys)

/-- Embedding of resolve_UTF8_ONS from src/index.ts: reject the empty path,
then run the reverse-order derivation loop starting from unknownParent. -/
def resolve_UTF8_ONS (C : Crypto) (path : List String)
    (unknownParent : Option Identifier) : Except String (List Identifier) :=
  if path.length = 0 then .error emptyPathMsg
  else resolveLoop C path.reverse unknownParent []

/-- Result record of parseNameAccountInfo in src/index.ts: parentName,
owner and class decoded from the data, the trailing bytes, and only the
lamports and rentEpoch of the account carried over. -/
structure NameAccountData where
  parentName : Identifier
  owner : Identifier
  «class» : Identifier
  data : Buffer
  lamports : Nat
  rentEpoch : Option Nat
deriving DecidableEq

/-- Embedding of parseNameAccountInfo from src/index.ts: null account and
short data are errors; otherwise the 96-byte header is sliced at fixed
offsets 0, 32, 64 and the remainder is the extra data. -/
def parseNameAccountInfo (nameAccount : Option (AccountInfo Buffer)) :
    Except String NameAccountData :=
  match nameAccount with
  | none => .error accountNotFoundMsg
  | some nameAccount =>
    if nameAccount.data.length < 96 then .error invalidNameDataMsg
    else .ok {
      parentName := bufferSlice nameAccount.data 0 32
      owner := bufferSlice nameAccount.data 32 64
      «class» := bufferSlice nameAccount.data 64 96
      data := bufferSliceFrom nameAccount.data 96
      lamports := nameAccount.lamports
      rentEpoch := nameAccount.rentEpoch }

end IndexTs

namespace Part000

/-- Embedding of resolveNameAccountKeyByName from the unnamed variant,
whose optional parameters are (klass, parent) in that order; it forwards
them to resolveNameAccountKey positionally. -/
def resolveNameAccountKeyByName (C : Crypto) (name : String)
    (klass parent : Option Identifier) : Option Identifier :=
  resolveNameAccountKey C (getHashedName C name) klass parent

/-- Embedding of the loop body of resolve_UTF8_ONS from the unnamed
variant: identical iteration, but its call site passes the chained parent
as the THIRD argument with an explicit undefined klass in between. -/
def resolveLoop (C : Crypto) : List String → Option Identifier → List Identifier →
    Except String (List Identifier)
  | [], _, keys => .ok keys
  | name :: rest, parentNameKey, keys =>
    match resolveNameAccountKeyByName C name none parentNameKey with
    | none => .error pdaUnavailableMsg
    | some nameKey => resolveLoop C rest (some nameKey) (nameKey :: keys)

/-- Embedding of resolve_UTF8_ONS from the unnamed variant. -/
def resolve_UTF8_ONS (C : Crypto) (path : List String)
    (unknownParent : Option Identifier) : Except String (List Identifier) :=
  if path.length = 0 then .error emptyPathMsg
  else resolveLoop C path.reverse unknownParent []

/-- Embedding of the NameData record of the unnamed variant. -/
structure NameData where
  name : Identifier
  parentName : Identifier
  owner : Identifier
  «class» : Identifier
  extra : Buffer
deriving DecidableEq

/-- Embedding of parseNameAccountInfo from the unnamed variant: same
checks and slicing, but the result spreads the whole account record and
replaces only its data field, so executable, owner, lamports and rentEpoch
are all carried over. -/
def parseNameAccountInfo (nameKey : Identifier)
    (nameAccount : Option (AccountInfo Buffer)) :
    Except String (AccountInfo NameData) :=
  match nameAccount with
  | none => .error accountNotFoundMsg
  | some nameAccount =>
    if nameAccount.data.length < 96 then .error invalidNameDataMsg
    else .ok {
      executable := nameAccount.executable
      owner := nameAccount.owner
      lamports := nameAccount.lamports
      rentEpoch := nameAccount.rentEpoch
      data := {
        name := nameKey
        parentName := bufferSlice nameAccount.data 0 32
        owner := bufferSlice nameAccount.data 32 64
        «class» := bufferSlice nameAccount.data 64 96
        extra := bufferSliceFrom nameAccount.data 96 } }

end Part000

/-- Embedding of the JavaScript String.prototype.trim call: drop
whitespace from both ends of the character list. -/
def jsTrim (s : List Char) : List Char :=
  ((s.dropWhile Char.isWhitespace).reverse.dropWhile Char.isWhitespace).reverse

/-- Embedding of the JavaScript toLowerCase call on the character list. -/
def jsToLowerCase (s : List Char) : List Char := s.map Char.toLower

/-- Embedding of the JavaScript split call with a one-character separator:
always returns at least one (possibly empty) segment. -/
def jsSplitOnChar (sep : Char) : List Char → List (List Char)
  | [] => [[]]
  | c :: rest =>
    if c = sep then [] :: jsSplitOnChar sep rest
    else
      match jsSplitOnChar sep rest with
      | [] => [[c]]
      | seg :: segs => (c :: seg) :: segs

namespace IndexTs

/-- Embedding of resolve_STD_ONS from src/index.ts: trim, lower-case and
split the domain on dots, then delegate to resolve_UTF8_ONS. -/
def resolve_STD_ONS (C : Crypto) (domain : String)
    (unknownParent : Option Identifier) : Except String (List Identifier) :=
  let names := (jsSplitOnChar '.' (jsToLowerCase (jsTrim domain.data))).map String.mk
  resolve_UTF8_ONS C names unknownParent

end IndexTs

/-- Appending strings appends their UTF-8 byte sequences. -/
theorem utf8Encode_append (a b : String) :
    utf8Encode (a ++ b) = utf8Encode a ++ utf8Encode b := by
  unfold utf8Encode
  rw [String.data_append, List.map_append, List.flatten_append]

/-- C3: getHashedName is total and hashes exactly the UTF-8 bytes of the
fixed prefix followed by the UTF-8 bytes of the unmodified name; the
prefix encodes to the 16 ASCII bytes of "SPL Name Service". -/
theorem claim_C3_getHashedName_digest (C : Crypto) (name : String) :
    getHashedName C name = C.sha256 (utf8Encode HASH_PREFIX ++ utf8Encode name) ∧
    utf8Encode HASH_PREFIX =
      [83, 80, 76, 32, 78, 97, 109, 101, 32, 83, 101, 114, 118, 105, 99, 101] := by
  constructor
  · unfold getHashedName
    rw [utf8Encode_append]
  · decide

/-- C4: resolveNameAccountKey feeds the seed list of the digest, the class
or 32 zero bytes, and the parent or 32 zero bytes, to findProgramAddress
with the fixed program id; absent optionals behave exactly like explicit
32-byte zero identifiers. -/
theorem claim_C4_resolveNameAccountKey_seeds (C : Crypto) (d : Buffer)
    (kls par : Option Identifier) :
    resolveNameAccountKey C d kls par =
      C.findProgramAddress [d, kls.getD (bufferAlloc 32), par.getD (bufferAlloc 32)]
        NAME_PROGRAM_ID ∧
    resolveNameAccountKey C d none none =
      resolveNameAccountKey C d (some (bufferAlloc 32)) (some (bufferAlloc 32)) := by
  refine ⟨?_, rfl⟩
  cases kls <;> cases par <;> rfl

/-- C7: resolve_UTF8_ONS on the empty path fails with the empty-path error
in both source variants, never returning a key list. -/
theorem claim_C7_empty_path_error (C : Crypto) (up : Option Identifier) :
    IndexTs.resolve_UTF8_ONS C [] up = .error emptyPathMsg ∧
    Part000.resolve_UTF8_ONS C [] up = .error emptyPathMsg :=
  ⟨rfl, rfl⟩

/-- Fixed-offset slices of a 96-byte header followed by a payload recover
the three header components and the payload. -/
theorem header_slices (p o c x : Buffer)
    (hp : p.length = 32) (ho : o.length = 32) (hc : c.length = 32) :
    bufferSlice (p ++ o ++ c ++ x) 0 32 = p ∧
    bufferSlice (p ++ o ++ c ++ x) 32 64 = o ∧
    bufferSlice (p ++ o ++ c ++ x) 64 96 = c ∧
    bufferSliceFrom (p ++ o ++ c ++ x) 96 = x := by
  have e1 : p ++ o ++ c ++ x = p ++ (o ++ (c ++ x)) := by simp
  have e2 : p ++ o ++ c ++ x = (p ++ o) ++ (c ++ x) := by simp
  have hpo : (p ++ o).length = 64 := by simp [hp, ho]
  have hpoc : (p ++ o ++ c).length = 96 := by simp [hp, ho, hc]
  refine ⟨?_, ?_, ?_, ?_⟩
  · show ((p ++ o ++ c ++ x).drop 0).take (32 - 0) = p
    rw [List.drop_zero, e1, ← hp]
    exact List.take_left p (o ++ (c ++ x))
  · show ((p ++ o ++ c ++ x).drop 32).take (64 - 32) = o
    rw [e1, ← hp, List.drop_left]
    have : (64 : Nat) - 32 = 32 := rfl
    rw [hp, this, ← ho]
    exact List.take_left o (c ++ x)
  · show ((p ++ o ++ c ++ x).drop 64).take (96 - 64) = c
    rw [e2, ← hpo, List.drop_left]
    have : (96 : Nat) - 64 = 32 := rfl
    rw [hpo, this, ← hc]
    exact List.take_left c x
  · show (p ++ o ++ c ++ x).drop 96 = x
    rw [← hpoc]
    exact List.drop_left (p ++ o ++ c) x

/-- C5: decoding an account whose data is the concatenation of a 32-byte
parent, 32-byte owner, 32-byte class and arbitrary payload succeeds in
both variants and returns exactly those components byte for byte. -/
theorem claim_C5_record_roundtrip (ex : Bool) (prog : Identifier) (lam : Nat)
    (re : Option Nat) (nameKey parent owner klass : Identifier) (payload : Buffer)
    (hp : parent.length = 32) (ho : owner.length = 32) (hc : klass.length = 32) :
    IndexTs.parseNameAccountInfo
        (some ⟨ex, prog, lam, parent ++ owner ++ klass ++ payload, re⟩) =
      .ok ⟨parent, owner, klass, payload, lam, re⟩ ∧
    Part000.parseNameAccountInfo nameKey
        (some ⟨ex, prog, lam, parent ++ owner ++ klass ++ payload, re⟩) =
      .ok ⟨ex, prog, lam, ⟨nameKey, parent, owner, klass, payload⟩, re⟩ := by
  have hlen : (parent ++ owner ++ klass ++ payload).length = 96 + payload.length := by
    simp [hp, ho, hc]
    omega
  have hnotlt : ¬ (parent ++ owner ++ klass ++ payload).length < 96 := by
    rw [hlen]; omega
  obtain ⟨s1, s2, s3, s4⟩ := header_slices parent owner klass payload hp ho hc
  constructor
  · simp only [IndexTs.parseNameAccountInfo]
    rw [if_neg hnotlt, s1, s2, s3, s4]
  · simp only [Part000.parseNameAccountInfo]
    rw [if_neg hnotlt, s1, s2, s3, s4]

/-- C5 witness at a concrete 100-byte record. -/
theorem claim_C5_witness :
    (List.replicate 32 1).length = 32 ∧
    (IndexTs.parseNameAccountInfo
        (some ⟨false, [9], 7, List.replicate 32 1 ++ List.replicate 32 2 ++
          List.replicate 32 3 ++ [4, 5, 6, 7], some 2⟩) =
      .ok ⟨List.replicate 32 1, List.replicate 32 2, List.replicate 32 3,
        [4, 5, 6, 7], 7, some 2⟩ ∧
    Part000.parseNameAccountInfo [8]
        (some ⟨false, [9], 7, List.replicate 32 1 ++ List.replicate 32 2 ++
          List.replicate 32 3 ++ [4, 5, 6, 7], some 2⟩) =
      .ok ⟨false, [9], 7, ⟨[8], List.replicate 32 1, List.replicate 32 2,
        List.replicate 32 3, [4, 5, 6, 7]⟩, some 2⟩) :=
  ⟨by decide,
    claim_C5_record_roundtrip false [9] 7 (some 2) [8]
      (List.replicate 32 1) (List.replicate 32 2) (List.replicate 32 3)
      [4, 5, 6, 7] (by decide) (by decide) (by decide)⟩

/-- C6: in both variants, the account-not-found error occurs exactly on an
absent account, and an account with data shorter than 96 bytes yields the
invalid-record error; no record is returned in either case. -/
theorem claim_C6_parse_errors (k : Identifier) (a : AccountInfo Buffer)
    (h : a.data.length < 96) :
    (∀ arg, IndexTs.parseNameAccountInfo arg = .error accountNotFoundMsg ↔ arg = none) ∧
    IndexTs.parseNameAccountInfo (some a) = .error invalidNameDataMsg ∧
    (∀ arg, Part000.parseNameAccountInfo k arg = .error accountNotFoundMsg ↔ arg = none) ∧
    Part000.parseNameAccountInfo k (some a) = .error invalidNameDataMsg := by
  have hmsg : invalidNameDataMsg ≠ accountNotFoundMsg := by decide
  refine ⟨?_, ?_, ?_, ?_⟩
  · intro arg
    constructor
    · intro herr
      cases arg with
      | none => rfl
      | some b =>
        exfalso
        simp only [IndexTs.parseNameAccountInfo] at herr
        by_cases hb : b.data.length < 96
        · rw [if_pos hb] at herr
          exact hmsg (Except.error.inj herr)
        · rw [if_neg hb] at herr
          exact Except.noConfusion herr
    · intro harg
      subst harg
      rfl
  · simp only [IndexTs.parseNameAccountInfo]
    rw [if_pos h]
  · intro arg
    constructor
    · intro herr
      cases arg with
      | none => rfl
      | some b =>
        exfalso
        simp only [Part000.parseNameAccountInfo] at herr
        by_cases hb : b.data.length < 96
        · rw [if_pos hb] at herr
          exact hmsg (Except.error.inj herr)
        · rw [if_neg hb] at herr
          exact Except.noConfusion herr
    · intro harg
      subst harg
      rfl
  · simp only [Part000.parseNameAccountInfo]
    rw [if_pos h]

/-- C6 witness at a concrete 95-byte account. -/
theorem claim_C6_witness :
    ((⟨false, [], 0, List.replicate 95 0, none⟩ : AccountInfo Buffer)).data.length < 96 ∧
    (IndexTs.parseNameAccountInfo (some ⟨false, [], 0, List.replicate 95 0, none⟩) =
      .error invalidNameDataMsg ∧
    Part000.parseNameAccountInfo [] (some ⟨false, [], 0, List.replicate 95 0, none⟩) =
      .error invalidNameDataMsg ∧
    IndexTs.parseNameAccountInfo none = .error accountNotFoundMsg) :=
  ⟨by decide,
    (claim_C6_parse_errors [] ⟨false, [], 0, List.replicate 95 0, none⟩ (by decide)).2.1,
    (claim_C6_parse_errors [] ⟨false, [], 0, List.replicate 95 0, none⟩ (by decide)).2.2.2,
    ((claim_C6_parse_errors [] ⟨false, [], 0, List.replicate 95 0, none⟩ (by decide)).1 none).mpr rfl⟩

/-- C9 counterexample: two present accounts, with 96-byte data, that differ
in their executable flag and in their owning program identifier, are parsed
to IDENTICAL results by the src/index.ts parseNameAccountInfo, so neither
field is passed through to its result. -/
theorem claim_C9_counterexample :
    (AccountInfo.mk true [1] 5 (List.replicate 96 0) (some 7)).executable ≠
      (AccountInfo.mk false [2] 5 (List.replicate 96 0) (some 7)).executable ∧
    (AccountInfo.mk true [1] 5 (List.replicate 96 0) (some 7)).owner ≠
      (AccountInfo.mk false [2] 5 (List.replicate 96 0) (some 7)).owner ∧
    IndexTs.parseNameAccountInfo
        (some (AccountInfo.mk true [1] 5 (List.replicate 96 0) (some 7))) =
      IndexTs.parseNameAccountInfo
        (some (AccountInfo.mk false [2] 5 (List.replicate 96 0) (some 7))) := by
  refine ⟨by decide, by decide, ?_⟩
  rfl

/-- C9 amended: the unnamed variant passes executable, owning program,
lamports and rentEpoch through unmodified; the src/index.ts variant passes
only lamports and rentEpoch through, and its result drops the executable
flag and the owning program identifier. -/
theorem claim_C9_amended_passthrough (k : Identifier) (a : AccountInfo Buffer)
    (h : 96 ≤ a.data.length) :
    (∃ nd, Part000.parseNameAccountInfo k (some a) =
      .ok ⟨a.executable, a.owner, a.lamports, nd, a.rentEpoch⟩) ∧
    (∃ pn ow cl ex, IndexTs.parseNameAccountInfo (some a) =
      .ok ⟨pn, ow, cl, ex, a.lamports, a.rentEpoch⟩) := by
  have hnotlt : ¬ a.data.length < 96 := by omega
  constructor
  · exact ⟨⟨k, bufferSlice a.data 0 32, bufferSlice a.data 32 64,
      bufferSlice a.data 64 96, bufferSliceFrom a.data 96⟩,
      by simp only [Part000.parseNameAccountInfo]; rw [if_neg hnotlt]⟩
  · exact ⟨bufferSlice a.data 0 32, bufferSlice a.data 32 64,
      bufferSlice a.data 64 96, bufferSliceFrom a.data 96,
      by simp only [IndexTs.parseNameAccountInfo]; rw [if_neg hnotlt]⟩

/-- C9 amended witness at a concrete 96-byte account. -/
theorem claim_C9_amended_witness :
    96 ≤ ((⟨true, [3], 11, List.replicate 96 1, some 4⟩ : AccountInfo Buffer)).data.length ∧
    ((∃ nd, Part000.parseNameAccountInfo [8]
        (some ⟨true, [3], 11, List.replicate 96 1, some 4⟩) =
      .ok ⟨true, [3], 11, nd, some 4⟩) ∧
    (∃ pn ow cl ex, IndexTs.parseNameAccountInfo
        (some ⟨true, [3], 11, List.replicate 96 1, some 4⟩) =
      .ok ⟨pn, ow, cl, ex, 11, some 4⟩)) :=
  ⟨by decide,
    claim_C9_amended_passthrough [8] ⟨true, [3], 11, List.replicate 96 1, some 4⟩ (by decide)⟩

/-- The JavaScript split always produces at least one segment. -/
theorem jsSplitOnChar_ne_nil (sep : Char) (s : List Char) :
    jsSplitOnChar sep s ≠ [] := by
  induction s with
  | nil => simp [jsSplitOnChar]
  | cons c rest ih =>
    unfold jsSplitOnChar
    by_cases hc : c = sep
    · rw [if_pos hc]
      simp
    · rw [if_neg hc]
      cases h : jsSplitOnChar sep rest <;> simp

/-- The derivation loop never reports the empty-path error in either
variant: its only failure is nonce exhaustion. -/
theorem resolveLoop_ne_emptyPath (C : Crypto) (names : List String) :
    ∀ p acc, IndexTs.resolveLoop C names p acc ≠ .error emptyPathMsg := by
  induction names with
  | nil =>
    intro p acc
    simp [IndexTs.resolveLoop]
  | cons name rest ih =>
    intro p acc
    simp only [IndexTs.resolveLoop]
    cases hk : IndexTs.resolveNameAccountKeyByName C name p none with
    | none =>
      intro hcontra
      have : pdaUnavailableMsg = emptyPathMsg := Except.error.inj hcontra
      exact absurd this (by decide)
    | some k => exact ih (some k) (k :: acc)

/-- C10: resolve_STD_ONS can never fail with the empty-path error, because
trimming, lower-casing and splitting always yield at least one label; in
particular the empty domain string resolves the single empty label. -/
theorem claim_C10_std_ons_total (C : Crypto) (domain : String)
    (up : Option Identifier) :
    IndexTs.resolve_STD_ONS C domain up ≠ .error emptyPathMsg ∧
    IndexTs.resolve_STD_ONS C "" up = IndexTs.resolve_UTF8_ONS C [""] up := by
  constructor
  · simp only [IndexTs.resolve_STD_ONS, IndexTs.resolve_UTF8_ONS]
    have hne : (jsSplitOnChar '.' (jsToLowerCase (jsTrim domain.data))).map String.mk ≠ [] := by
      intro hcontra
      exact jsSplitOnChar_ne_nil '.' (jsToLowerCase (jsTrim domain.data))
        (List.map_eq_nil_iff.mp hcontra)
    rw [if_neg (by simpa [List.length_eq_zero] using hne)]
    exact resolveLoop_ne_emptyPath C _ up []
  · rfl

/-- Functional form of the derivation loop: process names front to back,
threading each derived key as the next parent, and return the keys in
processing order. -/
def chainRev (C : Crypto) : List String → Option Identifier → Option (List Identifier)
  | [], _ => some []
  | name :: rest, p =>
    match IndexTs.resolveNameAccountKeyByName C name p none with
    | none => none
    | some k =>
      match chainRev C rest (some k) with
      | none => none
      | some ks => some (k :: ks)

/-- The accumulator loop computes the reverse of the functional chain
appended to the accumulator, or the nonce-exhaustion error. -/
theorem resolveLoop_eq_chainRev (C : Crypto) (names : List String) :
    ∀ (p : Option Identifier) (acc : List Identifier),
    IndexTs.resolveLoop C names p acc =
      match chainRev C names p with
      | none => .error pdaUnavailableMsg
      | some ks => .ok (ks.reverse ++ acc) := by
  induction names with
  | nil =>
    intro p acc
    rfl
  | cons name rest ih =>
    intro p acc
    cases hk : IndexTs.resolveNameAccountKeyByName C name p none with
    | none => simp only [IndexTs.resolveLoop, chainRev, hk]
    | some k =>
      simp only [IndexTs.resolveLoop, chainRev, hk]
      rw [ih (some k) (k :: acc)]
      cases hks : chainRev C rest (some k) with
      | none => rfl
      | some ks => simp

/-- The functional chain produces one key per name. -/
theorem chainRev_length (C : Crypto) (names : List String) :
    ∀ p ks, chainRev C names p = some ks → ks.length = names.length := by
  induction names with
  | nil =>
    intro p ks h
    simp only [chainRev] at h
    cases h
    rfl
  | cons name rest ih =>
    intro p ks h
    cases hk : IndexTs.resolveNameAccountKeyByName C name p none with
    | none =>
      simp only [chainRev, hk] at h
      exact Option.noConfusion h
    | some k =>
      cases hks : chainRev C rest (some k) with
      | none =>
        simp only [chainRev, hk, hks] at h
        exact Option.noConfusion h
      | some ks2 =>
        simp only [chainRev, hk, hks] at h
        cases h
        simp [ih (some k) ks2 hks]

/-- The first key of a non-empty functional chain is derived from the
first name with the initial parent. -/
theorem chainRev_head (C : Crypto) (name : String) (rest : List String)
    (p : Option Identifier) (ks : List Identifier)
    (h : chainRev C (name :: rest) p = some ks) :
    ∃ k, ks[0]? = some k ∧
      IndexTs.resolveNameAccountKeyByName C name p none = some k := by
  cases hk : IndexTs.resolveNameAccountKeyByName C name p none with
  | none =>
    simp only [chainRev, hk] at h
    exact Option.noConfusion h
  | some k =>
    cases hks : chainRev C rest (some k) with
    | none =>
      simp only [chainRev, hk, hks] at h
      exact Option.noConfusion h
    | some ks2 =>
      simp only [chainRev, hk, hks] at h
      cases h
      exact ⟨k, by simp, rfl⟩

/-- Every later key of the functional chain is derived from its name with
the immediately preceding key as parent. -/
theorem chainRev_step (C : Crypto) (names : List String) :
    ∀ p ks, chainRev C names p = some ks →
    ∀ j name, names[j + 1]? = some name →
    ∃ k k', ks[j]? = some k ∧ ks[j + 1]? = some k' ∧
      IndexTs.resolveNameAccountKeyByName C name (some k) none = some k' := by
  induction names with
  | nil =>
    intro p ks h j name hj
    simp at hj
  | cons n0 rest ih =>
    intro p ks h j name hj
    cases hk0 : IndexTs.resolveNameAccountKeyByName C n0 p none with
    | none =>
      simp only [chainRev, hk0] at h
      exact Option.noConfusion h
    | some k0 =>
      cases hks : chainRev C rest (some k0) with
      | none =>
        simp only [chainRev, hk0, hks] at h
        exact Option.noConfusion h
      | some ks2 =>
        simp only [chainRev, hk0, hks] at h
        cases h
        cases j with
        | zero =>
          cases rest with
          | nil => simp at hj
          | cons n1 rest2 =>
            have hn1 : n1 = name := by simpa using hj
            subst hn1
            obtain ⟨k1, hget, hder⟩ := chainRev_head C n1 rest2 (some k0) ks2 hks
            exact ⟨k0, k1, by simp, by simpa using hget, hder⟩
        | succ j2 =>
          obtain ⟨k, k', h1, h2, h3⟩ :=
            ih (some k0) ks2 hks j2 name (by simpa using hj)
          exact ⟨k, k', by simpa using h1, by simpa using h2, h3⟩

/-- C1: a successful resolve_UTF8_ONS returns exactly one key per label in
left-to-right input order, where the last label's key is derived with the
given unknownParent (and class absent) and every earlier label's key is
derived with the key of the label immediately after it as parent. -/
theorem claim_C1_resolve_chain (C : Crypto) (path : List String)
    (up : Option Identifier) (keys : List Identifier)
    (h : IndexTs.resolve_UTF8_ONS C path up = .ok keys) :
    keys.length = path.length ∧
    ∀ i name, path[i]? = some name →
      ∃ k, keys[i]? = some k ∧
        IndexTs.resolveNameAccountKeyByName C name
          (if i + 1 < path.length then keys[i + 1]? else up) none = some k := by
  simp only [IndexTs.resolve_UTF8_ONS] at h
  by_cases hlen : path.length = 0
  · rw [if_pos hlen] at h
    cases h
  · rw [if_neg hlen] at h
    rw [resolveLoop_eq_chainRev C path.reverse up []] at h
    cases hks : chainRev C path.reverse up with
    | none => rw [hks] at h; cases h
    | some ks =>
      rw [hks] at h
      have hkeys : keys = ks.reverse := by
        cases h
        simp
      subst hkeys
      have hkslen : ks.length = path.length := by
        have := chainRev_length C path.reverse up ks hks
        simpa using this
      constructor
      · simp [hkslen]
      · intro i name hi
        have hilt : i < path.length := by
          by_contra hc
          push_neg at hc
          rw [List.getElem?_eq_none hc] at hi
          cases hi
        by_cases hlast : i + 1 < path.length
        · have hnames : path.reverse[(path.length - 2 - i) + 1]? = some name := by
            rw [List.getElem?_reverse (by omega)]
            have heq : path.length - 1 - ((path.length - 2 - i) + 1) = i := by omega
            rw [heq]
            exact hi
          obtain ⟨k, k', h1, h2, h3⟩ :=
            chainRev_step C path.reverse up ks hks (path.length - 2 - i) name hnames
          refine ⟨k', ?_, ?_⟩
          · rw [List.getElem?_reverse (by rw [hkslen]; exact hilt)]
            have heq : ks.length - 1 - i = (path.length - 2 - i) + 1 := by omega
            rw [heq]
            exact h2
          · rw [if_pos hlast]
            have hrev : ks.reverse[i + 1]? = some k := by
              rw [List.getElem?_reverse (by rw [hkslen]; exact hlast)]
              have heq : ks.length - 1 - (i + 1) = path.length - 2 - i := by omega
              rw [heq]
              exact h1
            rw [hrev]
            exact h3
        · have hieq : i = path.length - 1 := by omega
          have hnames0 : path.reverse[0]? = some name := by
            rw [List.getElem?_reverse (by omega)]
            have heq : path.length - 1 - 0 = i := by omega
            rw [heq]
            exact hi
          cases hrevshape : path.reverse with
          | nil =>
            rw [hrevshape] at hnames0
            simp at hnames0
          | cons n0 rest =>
            have hn0 : n0 = name := by
              rw [hrevshape] at hnames0
              simpa using hnames0
            subst hn0
            rw [hrevshape] at hks
            obtain ⟨k, hget, hder⟩ := chainRev_head C n0 rest up ks hks
            refine ⟨k, ?_, ?_⟩
            · rw [List.getElem?_reverse (by rw [hkslen]; exact hilt)]
              have heq : ks.length - 1 - i = 0 := by omega
              rw [heq]
              exact hget
            · rw [if_neg hlast]
              exact hder

/-- Crypto instance used only to instantiate witnesses on concrete inputs:
hashing is constant and the address search always succeeds with a constant
key; the structural theorems hold for it like for any other instance. -/
def probeCrypto : Crypto where
  sha256 := fun _ => [0]
  findProgramAddress := fun _ _ => some [0]

/-- C1 witness on the concrete two-label path. -/
theorem claim_C1_witness :
    IndexTs.resolve_UTF8_ONS probeCrypto ["a", "b"] none = .ok [[0], [0]] ∧
    (([([0] : Identifier), [0]]).length = (["a", "b"] : List String).length ∧
      ∀ i name, (["a", "b"] : List String)[i]? = some name →
        ∃ k, ([([0] : Identifier), [0]])[i]? = some k ∧
          IndexTs.resolveNameAccountKeyByName probeCrypto name
            (if i + 1 < (["a", "b"] : List String).length
              then ([([0] : Identifier), [0]])[i + 1]? else none) none = some k) :=
  ⟨rfl, claim_C1_resolve_chain probeCrypto ["a", "b"] none [[0], [0]] rfl⟩

/-- A functional chain over an appended name list restricts to the chain
over the first part: the first keys only depend on the leading names. -/
theorem chainRev_append_left (C : Crypto) (a : List String) :
    ∀ b p ks, chainRev C (a ++ b) p = some ks →
      chainRev C a p = some (ks.take a.length) := by
  induction a with
  | nil =>
    intro b p ks h
    simp [chainRev]
  | cons n rest ih =>
    intro b p ks h
    rw [List.cons_append] at h
    cases hk : IndexTs.resolveNameAccountKeyByName C n p none with
    | none =>
      simp only [chainRev, hk] at h
      exact Option.noConfusion h
    | some k =>
      cases hrec : chainRev C (rest ++ b) (some k) with
      | none =>
        simp only [chainRev, hk, hrec] at h
        exact Option.noConfusion h
      | some ks2 =>
        simp only [chainRev, hk, hrec] at h
        cases h
        simp only [chainRev, hk, ih b (some k) ks2 hrec]
        simp

/-- C2: resolving any non-empty suffix of a successfully resolved path
from the same unknownParent reproduces exactly the trailing keys of the
full result. -/
theorem claim_C2_suffix_compositional (C : Crypto) (pre suf : List String)
    (up : Option Identifier) (keys : List Identifier) (hsuf : suf ≠ [])
    (h : IndexTs.resolve_UTF8_ONS C (pre ++ suf) up = .ok keys) :
    IndexTs.resolve_UTF8_ONS C suf up = .ok (keys.drop pre.length) := by
  simp only [IndexTs.resolve_UTF8_ONS] at h ⊢
  by_cases hlen : (pre ++ suf).length = 0
  · rw [if_pos hlen] at h
    exact Except.noConfusion h
  · rw [if_neg hlen] at h
    rw [resolveLoop_eq_chainRev, List.reverse_append] at h
    cases hks : chainRev C (suf.reverse ++ pre.reverse) up with
    | none => rw [hks] at h; exact Except.noConfusion h
    | some ks =>
      rw [hks] at h
      have hkeys : keys = ks.reverse := by
        cases h
        simp
      subst hkeys
      have hchain : chainRev C suf.reverse up = some (ks.take suf.reverse.length) :=
        chainRev_append_left C suf.reverse pre.reverse up ks hks
      have hsuflen : ¬ suf.length = 0 := by
        intro hc
        exact hsuf (List.length_eq_zero.mp hc)
      rw [if_neg hsuflen, resolveLoop_eq_chainRev, hchain]
      have hlenks : ks.length = suf.length + pre.length := by
        have := chainRev_length C (suf.reverse ++ pre.reverse) up ks hks
        simp at this
        omega
      have hdrop : ks.reverse.drop pre.length = (ks.take suf.length).reverse := by
        rw [List.reverse_take]
        congr 1
        omega
      simp only [List.length_reverse, List.append_nil]
      rw [hdrop]

/-- C2 witness: the last two keys of the concrete three-label resolution
equal the independent resolution of the two-label suffix. -/
theorem claim_C2_witness :
    IndexTs.resolve_UTF8_ONS probeCrypto (["a"] ++ ["b", "c"]) none =
      .ok [[0], [0], [0]] ∧
    IndexTs.resolve_UTF8_ONS probeCrypto ["b", "c"] none =
      .ok (([([0] : Identifier), [0], [0]]).drop (["a"] : List String).length) :=
  ⟨rfl, claim_C2_suffix_compositional probeCrypto ["a"] ["b", "c"] none
    [[0], [0], [0]] (by decide) rfl⟩

/-- The two variants' loops agree step by step, because each call site
routes the chained parent into the parent seed and leaves class absent. -/
theorem resolveLoop_variants_agree (C : Crypto) (names : List String) :
    ∀ p acc, IndexTs.resolveLoop C names p acc = Part000.resolveLoop C names p acc := by
  induction names with
  | nil =>
    intro p acc
    rfl
  | cons name rest ih =>
    intro p acc
    have hsame : Part000.resolveNameAccountKeyByName C name none p =
        IndexTs.resolveNameAccountKeyByName C name p none := rfl
    cases hk : IndexTs.resolveNameAccountKeyByName C name p none with
    | none => simp only [IndexTs.resolveLoop, Part000.resolveLoop, hsame, hk]
    | some k =>
      simp only [IndexTs.resolveLoop, Part000.resolveLoop, hsame, hk]
      exact ih (some k) (k :: acc)

/-- C8: despite the swapped optional-parameter orders of the two variants'
resolveNameAccountKeyByName, the two resolve_UTF8_ONS functions are
extensionally equal on every path and unknownParent, for every
interpretation of the external primitives. -/
theorem claim_C8_variants_extensionally_equal (C : Crypto) (path : List String)
    (up : Option Identifier) :
    IndexTs.resolve_UTF8_ONS C path up = Part000.resolve_UTF8_ONS C path up := by
  simp only [IndexTs.resolve_UTF8_ONS, Part000.resolve_UTF8_ONS]
  by_cases hlen : path.length = 0
  · rw [if_pos hlen, if_pos hlen]
  · rw [if_neg hlen, if_neg hlen]
    exact resolveLoop_variants_agree C path.reverse up []
